import Mathlib

/-!
Verification of the predicate-pipeline core of a parquet path streamer
(lib/pathStreamer.js): RowRange narrowing, the statistics pruner
(fastFilter / fastPass), the page-index filter stage, the value filter
stage (split by page, then scan), OR composition, the parser dispatch and
the memoizing fetch cache.  JavaScript numbers that carry column values
are modelled as `Int`; a possibly-`undefined` value is an `Option Int`.
-/

set_option autoImplicit false

namespace PQ

/-- JS relational comparison `a < b` on possibly-undefined operands:
any comparison against `undefined` is false (NaN semantics). -/
def jslt : Option Int → Option Int → Bool
  | some a, some b => decide (a < b)
  | _, _ => false

/-- JS relational comparison `a > b` on possibly-undefined operands. -/
def jsgt (a b : Option Int) : Bool := jslt b a

/-- The narrowing state a RowRange carries for one column path: the
row-group ordinal, the row interval `[lowIndex, highIndex]` and the
optional tightened min/max recorded by `extend` (RowRange in
pathStreamer.js). -/
structure RR where
  groupNo : Nat
  low : Nat
  high : Nat
  tmin : Option Int
  tmax : Option Int
deriving DecidableEq

/-- One column of one row group as the pipeline sees it: row-group
statistics (`meta_data.statistics`), the offset index
(`page_locations[..].first_row_index`) and the optional column index
(`min_values`, `max_values`). -/
structure ColumnData where
  statMin : Option Int
  statMax : Option Int
  offsets : List Nat
  colIdx : Option (List Int × List Int)
deriving DecidableEq

/-- RowRange.minValue: the tightened min if present, else the row-group
statistic. -/
def effMin (col : ColumnData) (rr : RR) : Option Int :=
  match rr.tmin with
  | some a => some a
  | none => col.statMin

/-- RowRange.maxValue: the tightened max if present, else the row-group
statistic. -/
def effMax (col : ColumnData) (rr : RR) : Option Int :=
  match rr.tmax with
  | some b => some b
  | none => col.statMax

/-- RowRange.extend without a path argument: narrows the interval and
inherits the tightened bounds through the prototype chain. -/
def RR.extendPlain (rr : RR) (lo hi : Nat) : RR :=
  { rr with low := lo, high := hi }

/-- RowRange.extend with a path: narrows the interval and records the
given tightened bounds for the path in the derived range. -/
def RR.extendVals (rr : RR) (lo hi : Nat) (lv hv : Int) : RR :=
  { rr with low := lo, high := hi, tmin := some lv, tmax := some hv }

/-- The binary-search loop of RowRange.findRelevantPageIndex.  `fuel`
bounds the number of iterations; the loop shrinks `hi - lo` every
iteration, so `page_locations.length` iterations always suffice.
The midpoint is `Math.ceil((hi - lo) / 2) + lo`, i.e.
`lo + (hi - lo + 1) / 2` on naturals. -/
def bsearchGo (locs : List Nat) (rowIndex : Nat) : Nat → Nat → Nat → Nat
  | 0, lo, _ => lo
  | fuel + 1, lo, hi =>
    if lo < hi then
      if locs.getD (lo + (hi - lo + 1) / 2) 0 ≤ rowIndex then
        bsearchGo locs rowIndex fuel (lo + (hi - lo + 1) / 2) hi
      else if hi ≠ lo + (hi - lo + 1) / 2 then
        bsearchGo locs rowIndex fuel lo (lo + (hi - lo + 1) / 2)
      else
        bsearchGo locs rowIndex fuel lo (lo + (hi - lo + 1) / 2 - 1)
    else lo

/-- RowRange.findRelevantPageIndex over the `first_row_index` list of the
offset index. -/
def findRelevantPageIndex (locs : List Nat) (rowIndex : Nat) : Nat :=
  bsearchGo locs rowIndex locs.length 0 (locs.length - 1)

/-- A non-index filter predicate: FilterRangePhase (`min`/`max`, either may
be absent) or FilterValuePhase (`value`). -/
inductive Pred where
  | range (mn mx : Option Int)
  | value (t : Int)
deriving DecidableEq

/-- FilterRangePhase.evaluate / FilterValuePhase.evaluate on one page
value.  The value variant uses JS loose equality, which on same-typed
numeric values is plain equality. -/
def evaluateRow : Pred → Int → Bool
  | .range mn mx, v =>
    if jslt mx (some v) then false
    else if jsgt mn (some v) then false
    else true
  | .value t, v => decide (v = t)

/-- FilterRangePhase.fastFilter / FilterValuePhase.fastFilter on the
effective bounds, keeping the source's operator precedence: for the range
variant the condition is
`(rowMin defined && rowMax defined && (max defined && rowMin > max)) ||
(min defined && rowMax < min)` — the second disjunct sits outside the
defined-ness guard. -/
def fastFilterPhase : Pred → Option Int → Option Int → Bool
  | .range mn mx, rm, rM =>
    !((rm.isSome && rM.isSome && (mx.isSome && jsgt rm mx)) || (mn.isSome && jslt rM mn))
  | .value t, rm, rM =>
    !(rm.isSome && rM.isSome && (jsgt rm (some t) || jslt rM (some t)))

/-- FilterRangePhase.fastPass / FilterValuePhase.fastPass on the effective
bounds.  The range variant compares strictly (`rowMin > min`,
`rowMax < max`); the value variant requires `rowMax === rowMin` (strict)
and then `rowMin == value` (loose, plain equality on Int). -/
def fastPassPhase : Pred → Option Int → Option Int → Bool
  | .range mn mx, rm, rM =>
    rm.isSome && rM.isSome && (mn.isNone || jsgt rm mn) && (mx.isNone || jslt rM mx)
  | .value t, rm, rM =>
    rm.isSome && decide (rM = rm) && (match rm with | some a => decide (a = t) | none => false)

/-- FilterRangeIndexPhase.evaluate on a page's (minValue, maxValue). -/
def evaluateRangeIdx (mn mx : Option Int) (minValue maxValue : Int) : Bool :=
  if jslt mx (some minValue) then false
  else if jsgt mn (some maxValue) then false
  else true

/-- FilterValueIndexPhase.evaluate on a page's (minValue, maxValue). -/
def evaluateValueIdx (t : Int) (minValue maxValue : Int) : Bool :=
  if decide (minValue > t) then false
  else if decide (maxValue < t) then false
  else true

/-- FilterIndexPhase.fastFilter: reject only when both effective bounds
are defined and the page-style evaluate refutes them. -/
def fastFilterIdx (ev : Int → Int → Bool) (rm rM : Option Int) : Bool :=
  match rm, rM with
  | some a, some b => ev a b
  | _, _ => true

/-- The page-walking run-building loop of FilterIndexPhase.pipe: a run of
consecutive matching pages accumulates a start row, an end row clamped to
the input range and the next page start, and the union of the pages'
min/max; a non-matching page flushes the run as a derived RowRange. -/
def idxLoop (ev : Int → Int → Bool) (offsets : List Nat) (mins maxs : List Int)
    (rr : RR) : List Nat → Option (Nat × Nat × Int × Int) → List RR
  | [], cur =>
    match cur with
    | some (s, e, lv, hv) => [rr.extendVals s e lv hv]
    | none => []
  | p :: rest, cur =>
    let minValue := mins.getD p 0
    let maxValue := maxs.getD p 0
    if ev minValue maxValue then
      let e := if p < offsets.length - 1 then min rr.high (offsets.getD (p + 1) 0 - 1) else rr.high
      match cur with
      | none =>
        idxLoop ev offsets mins maxs rr rest
          (some (max rr.low (offsets.getD p 0), e, minValue, maxValue))
      | some (s, _, lv, hv) =>
        idxLoop ev offsets mins maxs rr rest
          (some (s, e, if lv < minValue then lv else minValue,
                 if hv > maxValue then hv else maxValue))
    else
      match cur with
      | some (s, e, lv, hv) => rr.extendVals s e lv hv :: idxLoop ev offsets mins maxs rr rest none
      | none => idxLoop ev offsets mins maxs rr rest none

/-- FilterIndexPhase.pipe on one RowRange: fastFilter, then walk the pages
from the one containing lowIndex to the one containing highIndex. -/
def indexPipe (ev : Int → Int → Bool) (col : ColumnData) (rr : RR) : List RR :=
  if fastFilterIdx ev (effMin col rr) (effMax col rr) then
    let mins := (col.colIdx.getD ([], [])).1
    let maxs := (col.colIdx.getD ([], [])).2
    let sp := findRelevantPageIndex col.offsets rr.low
    let ep := findRelevantPageIndex col.offsets rr.high
    idxLoop ev col.offsets mins maxs rr (List.range' sp (ep + 1 - sp)) none
  else []

/-- The split-by-page sub-stage of FilterPhase.pipe: one derived RowRange
per page the input touches, clamped to the input's interval, carrying the
page's column-index bounds when the column index has been primed. -/
def splitPages (col : ColumnData) (rr : RR) (sp ep : Nat) : List Nat → List RR
  | [] => []
  | p :: rest =>
    let start := if p = sp then rr.low else col.offsets.getD p 0
    let stop := if p = ep then rr.high else col.offsets.getD (p + 1) 0 - 1
    (match col.colIdx with
      | some (mins, maxs) => rr.extendVals start stop (mins.getD p 0) (maxs.getD p 0)
      | none => rr.extendPlain start stop) :: splitPages col rr sp ep rest

/-- First etl.map of FilterPhase.pipe: fastFilter, fastPass-through, or
split into single-page ranges. -/
def stage1 (P : Pred) (col : ColumnData) (rr : RR) : List RR :=
  if !fastFilterPhase P (effMin col rr) (effMax col rr) then []
  else if fastPassPhase P (effMin col rr) (effMax col rr) then [rr]
  else
    let sp := findRelevantPageIndex col.offsets rr.low
    let ep := findRelevantPageIndex col.offsets rr.high
    splitPages col rr sp ep (List.range' sp (ep + 1 - sp))

/-- The row-scanning run-building loop of the scan sub-stage of
FilterPhase.pipe: contiguous matching rows accumulate their value extrema
and are flushed as a derived RowRange when a non-matching row (or the end
of the interval) is reached. -/
def scanLoop (P : Pred) (f : Nat → Int) (rr : RR) :
    List Nat → Option (Nat × Nat × Int × Int) → List RR
  | [], cur =>
    match cur with
    | some (s, e, lv, hv) => [rr.extendVals s e lv hv]
    | none => []
  | i :: rest, cur =>
    let v := f i
    if evaluateRow P v then
      match cur with
      | none => scanLoop P f rr rest (some (i, i, v, v))
      | some (s, _, lv, hv) =>
        scanLoop P f rr rest (some (s, i, if lv < v then lv else v, if hv > v then hv else v))
    else
      match cur with
      | some (s, e, lv, hv) => rr.extendVals s e lv hv :: scanLoop P f rr rest none
      | none => scanLoop P f rr rest none

/-- RowRange.pageData for the page starting at absolute row `base`: the
decoded page values, indexed relative to the page start. -/
def pageVals (vals : Nat → Int) (base : Nat) : Nat → Int :=
  fun rel => vals (base + rel)

/-- Second etl.map of FilterPhase.pipe: fastPass-through, or fetch the
single page the range sits in and scan its rows. -/
def stage2 (P : Pred) (col : ColumnData) (vals : Nat → Int) (rr : RR) : List RR :=
  if fastPassPhase P (effMin col rr) (effMax col rr) then [rr]
  else
    let p := findRelevantPageIndex col.offsets rr.low
    let base := col.offsets.getD p 0
    scanLoop P (fun i => pageVals vals base (i - base)) rr
      (List.range' rr.low (rr.high + 1 - rr.low)) none

/-- FilterPhase.pipe: the split sub-stage piped into the scan sub-stage.
`vals i` is the decoded value of the filtered column at absolute row
index `i`. -/
def filterPhasePipe (P : Pred) (col : ColumnData) (vals : Nat → Int) (rr : RR) : List RR :=
  (stage1 P col rr).flatMap (stage2 P col vals)

/-- The per-child-range loop of FilterOrPhase.pipe: walk the row indices
of a range emitted by a child sub-pipeline, mark each not-yet-claimed
index in the shared bitmap, and emit the maximal runs of indices that were
still unclaimed; a trailing open run is flushed up to the child range's
highIndex. -/
def orGo (hi : Nat) : List Nat → (Nat → Bool) → Option Nat → ((Nat → Bool) × List (Nat × Nat))
  | [], sent, last =>
    (sent, match last with | some s => [(s, hi)] | none => [])
  | i :: rest, sent, last =>
    if sent i then
      match last with
      | some s =>
        let r := orGo hi rest sent none
        (r.1, (s, i - 1) :: r.2)
      | none => orGo hi rest sent none
    else
      orGo hi rest (fun j => if j = i then true else sent j)
        (match last with | some s => some s | none => some i)

/-- FilterOrPhase.pipe: feed every range emitted by the children through
the claiming loop, threading the shared bitmap. -/
def orAll : List (Nat × Nat) → (Nat → Bool) → List (Nat × Nat)
  | [], _ => []
  | (lo, hi) :: rest, sent =>
    let r := orGo hi (List.range' lo (hi + 1 - lo)) sent none
    r.2 ++ orAll rest r.1

/-- FilterOrPhase.pipe on one input RowRange, given the list of ranges
each child sub-pipeline emits for it (children are processed with a fresh
all-false bitmap per input range). -/
def orPipe (children : List (List (Nat × Nat))) : List (Nat × Nat) :=
  orAll children.flatten (fun _ => false)

/-- Whether a range covers a row index. -/
def covers (r : Nat × Nat) (j : Nat) : Bool := decide (r.1 ≤ j ∧ j ≤ r.2)

/-- How many ranges of a list cover a row index. -/
def coverCount (rs : List (Nat × Nat)) (j : Nat) : Nat := rs.countP (fun r => covers r j)

/-- An event against the memoizing fetch cache: a requester asks for a
key, an in-flight fetch for a key resolves, or the bounded LRU evicts a
key to make room (capacity eviction happens whenever enough other entries
are inserted, at any time — even while the key's fetch is in flight). -/
inductive CacheEvent where
  | request (k : Nat)
  | complete (k : Nat)
  | evict (k : Nat)
deriving DecidableEq

/-- The `memoize` function of pathStreamer.js (and the promise maps of
RowRange.primeOffsetIndex / primeColumnIndex, which are the durable case
scoped to one lineage): a request for a key not in the map starts a fetch
and synchronously stores the future; a request for a present key joins the
stored future; when a fetch completes, a short-scope (page) key is deleted
from its plain Map while durable keys (offsetIndex, columnIndex) stay.
The durable store, however, is a bounded QuickLRU (maxSize
PARQUET_CACHE_SIZE or 10000), so a durable key can be evicted at any
moment by capacity pressure; the short-scope store is a plain Map and is
never evicted.  `cacheRun` counts the underlying reader fetches for key
`k` over an event trace. -/
def cacheRun (short : Nat → Bool) (k : Nat) : List CacheEvent → (Nat → Bool) → Nat
  | [], _ => 0
  | .request q :: es, s =>
    if s q then cacheRun short k es s
    else (if q = k then 1 else 0) + cacheRun short k es (fun j => if j = q then true else s j)
  | .complete q :: es, s =>
    cacheRun short k es (if short q then (fun j => if j = q then false else s j) else s)
  | .evict q :: es, s =>
    cacheRun short k es (if short q then s else (fun j => if j = q then false else s j))

/-- Completions of key `k` in a trace. -/
def completeCount (k : Nat) (es : List CacheEvent) : Nat :=
  es.countP (fun e => decide (e = .complete k))

/-- LRU evictions of key `k` in a trace. -/
def evictCount (k : Nat) (es : List CacheEvent) : Nat :=
  es.countP (fun e => decide (e = .evict k))

/-- Whether an event can drop key `k`'s stored future: a completion for a
short-scope (page) key, an LRU eviction for a durable key. -/
def dropEvent (short : Nat → Bool) (k : Nat) (e : CacheEvent) : Bool :=
  if short k then decide (e = .complete k) else decide (e = .evict k)

/-- Events of a trace that can drop key `k`'s stored future. -/
def dropCount (short : Nat → Bool) (k : Nat) (es : List CacheEvent) : Nat :=
  es.countP (dropEvent short k)

/-- A JS primitive value as it occurs in page data and statistics:
a number or a string. -/
inductive JSValue where
  | num (n : Int)
  | str (s : String)
deriving DecidableEq

/-- Decimal digit strings to numbers, modelling the JS ToNumber coercion
of the string literals that occur in loose comparisons (non-numeric
strings coerce to NaN, i.e. compare unequal: `none`). -/
def strToNumAux : List Char → Nat → Option Nat
  | [], acc => some acc
  | c :: cs, acc =>
    if c.isDigit then strToNumAux cs (acc * 10 + (c.toNat - 48))
    else none

/-- JS ToNumber on a string, restricted to nonempty decimal digit
strings. -/
def strToNum (s : String) : Option Int :=
  match s.data with
  | [] => none
  | cs => (strToNumAux cs 0).map (fun n => (n : Int))

/-- JS strict equality (`===`) on primitive values: differing types never
compare equal. -/
def jsStrictEq : JSValue → JSValue → Bool
  | .num a, .num b => decide (a = b)
  | .str a, .str b => decide (a = b)
  | _, _ => false

/-- JS loose equality (`==`) on primitive values: a string compared with a
number is coerced with ToNumber. -/
def jsLooseEq : JSValue → JSValue → Bool
  | .num a, .num b => decide (a = b)
  | .str a, .str b => decide (a = b)
  | .num a, .str s => match strToNum s with | some m => decide (m = a) | none => false
  | .str s, .num b => match strToNum s with | some m => decide (m = b) | none => false

/-- FilterValuePhase.evaluate: `value == this.value` (loose equality). -/
def evaluateValueJS (v t : JSValue) : Bool := jsLooseEq v t

/-- FilterValuePhase.fastPass on possibly-undefined effective bounds:
`rowMin !== undefined && rowMax === rowMin && rowMin == value`. -/
def fastPassValueJS (rm rM : Option JSValue) (t : JSValue) : Bool :=
  match rm with
  | none => false
  | some a =>
    (match rM with | some b => jsStrictEq b a | none => false) && jsLooseEq a t

/-- The fields of a filter-phase specification object that
parseFilterPhase inspects; any further (unknown) keys are invisible to
it.  `orClause` / `andClause` are the truthiness of `spec.or` /
`spec.and`, `isArray` whether the spec is an array. -/
structure FilterSpec where
  index : Bool
  value : Option Int
  min : Option Int
  max : Option Int
  orClause : Bool
  isArray : Bool
  andClause : Bool
deriving DecidableEq

/-- The kind of phase object parseFilterPhase constructs. -/
inductive PhaseKind where
  | valueIndex
  | rangeIndex
  | valuePhase
  | rangePhase
  | orPhase
  | andPhase
deriving DecidableEq

/-- parseFilterPhase (pathStreamer.js): the if/else dispatch over the
recognized keys.  A spec that matches no branch produces no phase —
the function falls through and returns `undefined` (`none`). -/
def parseFilterPhase (s : FilterSpec) : Option PhaseKind :=
  if s.index then
    if s.value.isSome then some .valueIndex
    else if s.min.isSome || s.max.isSome then some .rangeIndex
    else none
  else if s.value.isSome then some .valuePhase
  else if s.min.isSome || s.max.isSome then some .rangePhase
  else if s.orClause then some .orPhase
  else if s.isArray then some .andPhase
  else if s.andClause then some .andPhase
  else none

/-- The `quantity` column of row group 0 of the test fixture
(test/stream.js mockReader): 6 rows, pages starting at rows 0 and 4,
page mins [20, 25], page maxes [30, 29], row-group stats 20..30. -/
def g0quantity : ColumnData := ⟨some 20, some 30, [0, 4], some ([20, 25], [30, 29])⟩

/-- The `quantity` column of row group 1 of the test fixture: 5 rows,
pages starting at rows 0, 1 and 3, page mins [20, 15, 18], page maxes
[20, 17, 30], row-group stats 15..32. -/
def g1quantity : ColumnData := ⟨some 15, some 32, [0, 1, 3], some ([20, 15, 18], [20, 17, 30])⟩

/-- The `quantity` column of the fixture, by row-group ordinal. -/
def quantityCol : Nat → ColumnData
  | 0 => g0quantity
  | _ => g1quantity

/-- PathStreamer on the two-row-group fixture with
`filter = [{path: quantity, min: 18, max: 20, index: true}]`: one root
RowRange per row group, the implicit single-item AND wrapper
(FilterAndPhase.fastFilter gates the prime), then the index phase's own
pipe.  Result projected to (row-group ordinal, lowIndex, highIndex). -/
def c2Run : List (Nat × Nat × Nat) :=
  (([⟨0, 0, 5, none, none⟩, ⟨1, 0, 4, none, none⟩] : List RR).flatMap (fun rr =>
    if fastFilterIdx (evaluateRangeIdx (some 18) (some 20))
        (effMin (quantityCol rr.groupNo) rr) (effMax (quantityCol rr.groupNo) rr) then
      indexPipe (evaluateRangeIdx (some 18) (some 20)) (quantityCol rr.groupNo) rr
    else [])).map (fun r => (r.groupNo, r.low, r.high))

/-- A one-page column used to exercise the value-filter pipeline: stats
20..30, a single page starting at row 0 with column-index bounds 20..30. -/
def c1ColW : ColumnData := ⟨some 20, some 30, [0], some ([20], [30])⟩

/-- A three-row root RowRange over that column. -/
def c1RRW : RR := ⟨0, 0, 2, none, none⟩

/-- Coverage contributed by the currently-open unclaimed run of the OR
loop: the run starts at `last` and has advanced up to (excluding) `i`. -/
def openRunCount (last : Option Nat) (i j : Nat) : Nat :=
  match last with
  | some s => if s ≤ j ∧ j < i then 1 else 0
  | none => 0

/-- A possibly-undefined lower bound and upper bound both hold of a
value. -/
def boundedBy (rm rM : Option Int) (v : Int) : Prop :=
  (∀ a, rm = some a → a ≤ v) ∧ (∀ b, rM = some b → v ≤ b)

/-- The effective bounds of a RowRange truthfully bound the column value
of every row it spans. -/
def boundsOk (col : ColumnData) (vals : Nat → Int) (rr : RR) : Prop :=
  ∀ i, rr.low ≤ i → i ≤ rr.high → boundedBy (effMin col rr) (effMax col rr) (vals i)

/-- The column-index entries truthfully bound the column values of the
rows of each page. -/
def colIdxOk (col : ColumnData) (vals : Nat → Int) : Prop :=
  ∀ mins maxs, col.colIdx = some (mins, maxs) →
    ∀ p, p < col.offsets.length →
      ∀ i, col.offsets.getD p 0 ≤ i →
        (p + 1 < col.offsets.length → i < col.offsets.getD (p + 1) 0) →
        mins.getD p 0 ≤ vals i ∧ vals i ≤ maxs.getD p 0

/-- The predicate holds of a value, read off the spec: a Value node
demands equality with the target, a Range node demands the value to lie
within whichever of min/max are defined. -/
def PredHolds : Pred → Int → Prop
  | .range mn mx, v => (∀ a, mn = some a → a ≤ v) ∧ (∀ b, mx = some b → v ≤ b)
  | .value t, v => v = t

/-! ### Sorted-list access lemmas -/

theorem getD_lt_of_sorted {l : List Nat} (hs : l.Pairwise (fun a b => a < b)) {i j : Nat}
    (hij : i < j) (hj : j < l.length) : l.getD i 0 < l.getD j 0 := by
  have hi : i < l.length := Nat.lt_trans hij hj
  rw [List.getD_eq_get?, List.get?_eq_get hi, List.getD_eq_get?, List.get?_eq_get hj]
  exact List.pairwise_iff_get.mp hs ⟨i, hi⟩ ⟨j, hj⟩ hij

theorem getD_le_of_sorted {l : List Nat} (hs : l.Pairwise (fun a b => a < b)) {i j : Nat}
    (hij : i ≤ j) (hj : j < l.length) : l.getD i 0 ≤ l.getD j 0 := by
  rcases Nat.eq_or_lt_of_le hij with h | h
  · exact Nat.le_of_eq (by rw [h])
  · exact Nat.le_of_lt (getD_lt_of_sorted hs h hj)

/-! ### Binary search correctness -/

theorem bsearchGo_correct (l : List Nat) (x : Nat) (hs : l.Pairwise (fun a b => a < b)) :
    ∀ fuel lo hi, hi - lo < fuel → lo ≤ hi → hi < l.length →
      l.getD lo 0 ≤ x → (hi + 1 < l.length → x < l.getD (hi + 1) 0) →
      lo ≤ bsearchGo l x fuel lo hi ∧ bsearchGo l x fuel lo hi ≤ hi ∧
        l.getD (bsearchGo l x fuel lo hi) 0 ≤ x ∧
        (bsearchGo l x fuel lo hi + 1 < l.length → x < l.getD (bsearchGo l x fuel lo hi + 1) 0) := by
  intro fuel
  induction fuel with
  | zero => intro lo hi hfuel _ _ _ _; omega
  | succ n ih =>
    intro lo hi hfuel hlh hhl hlo hhi
    by_cases hcase : lo < hi
    · have hmid1 : lo < lo + (hi - lo + 1) / 2 := by omega
      have hmid2 : lo + (hi - lo + 1) / 2 ≤ hi := by omega
      rw [bsearchGo, if_pos hcase]
      by_cases hv : l.getD (lo + (hi - lo + 1) / 2) 0 ≤ x
      · rw [if_pos hv]
        obtain ⟨a, b, c, d⟩ := ih (lo + (hi - lo + 1) / 2) hi (by omega) hmid2 hhl hv hhi
        exact ⟨by omega, b, c, d⟩
      · rw [if_neg hv]
        by_cases hne : hi ≠ lo + (hi - lo + 1) / 2
        · rw [if_pos hne]
          have hmlt : lo + (hi - lo + 1) / 2 < hi := by omega
          have hx2 : lo + (hi - lo + 1) / 2 + 1 < l.length →
              x < l.getD (lo + (hi - lo + 1) / 2 + 1) 0 := by
            intro hlen
            have hxm : x < l.getD (lo + (hi - lo + 1) / 2) 0 := by omega
            exact Nat.lt_of_lt_of_le hxm (getD_le_of_sorted hs (by omega) hlen)
          obtain ⟨a, b, c, d⟩ :=
            ih lo (lo + (hi - lo + 1) / 2) (by omega) (by omega) (by omega) hlo hx2
          exact ⟨a, by omega, c, d⟩
        · rw [if_neg hne]
          have hhm : hi = lo + (hi - lo + 1) / 2 := by omega
          obtain ⟨a, b, c, d⟩ :=
            ih lo (lo + (hi - lo + 1) / 2 - 1) (by omega) (by omega) (by omega) hlo
              (by intro _; have : lo + (hi - lo + 1) / 2 - 1 + 1 = lo + (hi - lo + 1) / 2 := by omega
                  rw [this]; omega)
          exact ⟨a, by omega, c, d⟩
    · rw [bsearchGo, if_neg hcase]
      have : lo = hi := by omega
      exact ⟨Nat.le_refl lo, by omega, hlo, by rw [this]; exact hhi⟩

theorem findRelevantPageIndex_correct (l : List Nat) (x : Nat)
    (hs : l.Pairwise (fun a b => a < b)) (h0 : l ≠ []) (hx : l.getD 0 0 ≤ x) :
    findRelevantPageIndex l x < l.length ∧
      l.getD (findRelevantPageIndex l x) 0 ≤ x ∧
      (findRelevantPageIndex l x + 1 < l.length → x < l.getD (findRelevantPageIndex l x + 1) 0) := by
  have hlen : 0 < l.length := List.length_pos.mpr h0
  obtain ⟨a, b, c, d⟩ :=
    bsearchGo_correct l x hs l.length 0 (l.length - 1) (by omega) (by omega) (by omega) hx
      (by omega)
  exact ⟨by unfold findRelevantPageIndex; omega, c, d⟩

/-! ### Cache dedup -/

theorem updState_ne {s : Nat → Bool} {q k : Nat} (b : Bool) (h : q ≠ k) :
    (fun j => if j = q then b else s j) k = s k := if_neg (fun hh => h hh.symm)

theorem updState_eq {s : Nat → Bool} {q : Nat} (b : Bool) :
    (fun j => if j = q then b else s j) q = b := if_pos rfl

theorem cacheRun_request (short : Nat → Bool) (k q : Nat) (es : List CacheEvent)
    (s : Nat → Bool) :
    cacheRun short k (.request q :: es) s =
      if s q then cacheRun short k es s
      else (if q = k then 1 else 0) + cacheRun short k es (fun j => if j = q then true else s j) :=
  rfl

theorem cacheRun_complete (short : Nat → Bool) (k q : Nat) (es : List CacheEvent)
    (s : Nat → Bool) :
    cacheRun short k (.complete q :: es) s =
      cacheRun short k es (if short q then (fun j => if j = q then false else s j) else s) :=
  rfl

theorem cacheRun_evict (short : Nat → Bool) (k q : Nat) (es : List CacheEvent)
    (s : Nat → Bool) :
    cacheRun short k (.evict q :: es) s =
      cacheRun short k es (if short q then s else (fun j => if j = q then false else s j)) :=
  rfl

theorem completeCount_request (k q : Nat) (es : List CacheEvent) :
    completeCount k (.request q :: es) = completeCount k es := by
  simp [completeCount]

theorem completeCount_complete (k q : Nat) (es : List CacheEvent) :
    completeCount k (.complete q :: es) = (if q = k then 1 else 0) + completeCount k es := by
  by_cases h : q = k <;> simp [completeCount, h, Nat.add_comm]

theorem dropCount_eq (short : Nat → Bool) (k : Nat) (es : List CacheEvent) :
    dropCount short k es = if short k then completeCount k es else evictCount k es := by
  by_cases hsk : short k = true
  · rw [if_pos hsk]
    unfold dropCount completeCount
    apply List.countP_congr
    intro e _
    simp [dropEvent, hsk]
  · rw [if_neg hsk]
    unfold dropCount evictCount
    apply List.countP_congr
    intro e _
    simp [dropEvent, hsk]

theorem cacheRun_le_drops (short : Nat → Bool) (k : Nat) :
    ∀ (es : List CacheEvent) (s : Nat → Bool),
      (s k = true → cacheRun short k es s ≤ dropCount short k es) ∧
      cacheRun short k es s ≤ dropCount short k es + 1 := by
  intro es
  induction es with
  | nil => intro s; exact ⟨fun _ => Nat.le_refl 0, Nat.le_succ 0⟩
  | cons e rest ih =>
    intro s
    cases e with
    | request q =>
      have hd : dropCount short k (.request q :: rest) = dropCount short k rest := by
        by_cases hsk : short k = true <;>
          simp [dropCount, List.countP_cons, dropEvent, hsk]
      rw [cacheRun_request, hd]
      by_cases hq : s q = true
      · rw [if_pos hq]; exact ih s
      · rw [if_neg hq]
        by_cases hqk : q = k
        · constructor
          · intro hk; rw [hqk, hk] at hq; exact absurd rfl hq
          · rw [if_pos hqk]
            have h1 := (ih (fun j => if j = q then true else s j)).1
              (by rw [hqk] at *; exact updState_eq true)
            omega
        · rw [if_neg hqk]
          have hpres : (fun j => if j = q then true else s j) k = s k := updState_ne true hqk
          constructor
          · intro hk
            have h1 := (ih (fun j => if j = q then true else s j)).1 (hpres.trans hk)
            omega
          · have h2 := (ih (fun j => if j = q then true else s j)).2
            omega
    | complete q =>
      rw [cacheRun_complete]
      by_cases hsq : short q = true
      · rw [if_pos hsq]
        by_cases hqk : q = k
        · have hsk : short k = true := by rw [← hqk]; exact hsq
          have hd : dropCount short k (.complete q :: rest) = dropCount short k rest + 1 := by
            simp [dropCount, List.countP_cons, dropEvent, hsk, hqk]
          rw [hd]
          have h2 := (ih (fun j => if j = q then false else s j)).2
          exact ⟨fun _ => h2, by omega⟩
        · have hd : dropCount short k (.complete q :: rest) = dropCount short k rest := by
            by_cases hsk : short k = true <;>
              simp [dropCount, List.countP_cons, dropEvent, hsk, hqk]
          rw [hd]
          have hpres : (fun j => if j = q then false else s j) k = s k := updState_ne false hqk
          constructor
          · intro hk
            exact (ih (fun j => if j = q then false else s j)).1 (hpres.trans hk)
          · exact (ih (fun j => if j = q then false else s j)).2
      · rw [if_neg hsq]
        have hd : dropCount short k (.complete q :: rest) = dropCount short k rest := by
          by_cases hsk : short k = true
          · have hqk : q ≠ k := fun h => hsq (by rw [h]; exact hsk)
            simp [dropCount, List.countP_cons, dropEvent, hsk, hqk]
          · simp [dropCount, List.countP_cons, dropEvent, hsk]
        rw [hd]
        exact ih s
    | evict q =>
      rw [cacheRun_evict]
      by_cases hsq : short q = true
      · rw [if_pos hsq]
        have hd : dropCount short k (.evict q :: rest) = dropCount short k rest := by
          by_cases hsk : short k = true
          · simp [dropCount, List.countP_cons, dropEvent, hsk]
          · have hqk : q ≠ k := fun h => hsk (by rw [← h]; exact hsq)
            simp [dropCount, List.countP_cons, dropEvent, hsk, hqk]
        rw [hd]
        exact ih s
      · rw [if_neg hsq]
        by_cases hqk : q = k
        · have hskf : short k = false := by
            cases h : short k
            · rfl
            · exact absurd (by rw [hqk]; exact h) hsq
          have hd : dropCount short k (.evict q :: rest) = dropCount short k rest + 1 := by
            simp [dropCount, List.countP_cons, dropEvent, hskf, hqk]
          rw [hd]
          have h2 := (ih (fun j => if j = q then false else s j)).2
          exact ⟨fun _ => h2, by omega⟩
        · have hd : dropCount short k (.evict q :: rest) = dropCount short k rest := by
            by_cases hsk : short k = true <;>
              simp [dropCount, List.countP_cons, dropEvent, hsk, hqk]
          rw [hd]
          have hpres : (fun j => if j = q then false else s j) k = s k := updState_ne false hqk
          constructor
          · intro hk
            exact (ih (fun j => if j = q then false else s j)).1 (hpres.trans hk)
          · exact (ih (fun j => if j = q then false else s j)).2

/-! ### OR-phase coverage -/

theorem coverCount_nil (j : Nat) : coverCount [] j = 0 := rfl

theorem coverCount_cons (r : Nat × Nat) (rs : List (Nat × Nat)) (j : Nat) :
    coverCount (r :: rs) j = coverCount rs j + if covers r j = true then 1 else 0 := by
  simp [coverCount, List.countP_cons]

theorem coverCount_append (a b : List (Nat × Nat)) (j : Nat) :
    coverCount (a ++ b) j = coverCount a j + coverCount b j := by
  simp [coverCount, List.countP_append]

theorem orGo_fst (hi j : Nat) :
    ∀ (l : List Nat) (sent : Nat → Bool) (last : Option Nat),
      (orGo hi l sent last).1 j = (sent j || decide (j ∈ l)) := by
  intro l
  induction l with
  | nil => intro sent last; cases last <;> simp [orGo]
  | cons i rest ih =>
    intro sent last
    by_cases hsi : sent i = true
    · by_cases hji : j = i
      · subst hji
        cases last <;> simp [orGo, hsi, ih]
      · cases last <;> simp [orGo, hsi, ih, List.mem_cons, hji]
    · have hsi' : sent i = false := by
        cases h : sent i
        · rfl
        · exact absurd h hsi
      by_cases hji : j = i
      · subst hji
        cases last <;> simp [orGo, hsi', ih, List.mem_cons]
      · cases last <;> simp [orGo, hsi', ih, List.mem_cons, hji]

theorem orGo_count (hi j : Nat) :
    ∀ (n i : Nat) (sent : Nat → Bool) (last : Option Nat),
      i + n = hi + 1 →
      (∀ s, last = some s → s < i) →
      coverCount (orGo hi (List.range' i n) sent last).2 j =
        (if i ≤ j ∧ j ≤ hi ∧ sent j = false then 1 else 0) + openRunCount last i j := by
  intro n
  induction n with
  | zero =>
    intro i sent last hin hlast
    have hno : ¬(i ≤ j ∧ j ≤ hi ∧ sent j = false) := by
      rintro ⟨h1, h2, _⟩; omega
    cases last with
    | none => simp [orGo, coverCount, openRunCount, hno]
    | some s =>
      have hs := hlast s rfl
      simp [orGo, coverCount, covers, openRunCount, hno, List.countP_cons]
      split_ifs <;> omega
  | succ m ih =>
    intro i sent last hin hlast
    rw [List.range'_succ]
    have hihi : i ≤ hi := by omega
    by_cases hsi : sent i = true
    · cases last with
      | some s =>
        have hs := hlast s rfl
        have hrec := ih (i + 1) sent none (by omega) (fun s' h => by cases h)
        simp only [orGo, hsi, if_true, coverCount_cons]
        rw [hrec]
        by_cases hj : sent j = true
        · have hno1 : ¬(i + 1 ≤ j ∧ j ≤ hi ∧ sent j = false) := by
            rintro ⟨_, _, hc⟩; rw [hj] at hc; cases hc
          have hno2 : ¬(i ≤ j ∧ j ≤ hi ∧ sent j = false) := by
            rintro ⟨_, _, hc⟩; rw [hj] at hc; cases hc
          simp [hno1, hno2, openRunCount, covers]
          split_ifs <;> omega
        · have hj' : sent j = false := by
            cases h : sent j
            · rfl
            · exact absurd h hj
          have hji : j ≠ i := by
            intro h; rw [h, hsi] at hj'; cases hj'
          simp [hj', openRunCount, covers]
          split_ifs <;> omega
      | none =>
        have hrec := ih (i + 1) sent none (by omega) (fun s' h => by cases h)
        simp only [orGo, hsi, if_true, coverCount_cons]
        rw [hrec]
        by_cases hj : sent j = true
        · have hno1 : ¬(i + 1 ≤ j ∧ j ≤ hi ∧ sent j = false) := by
            rintro ⟨_, _, hc⟩; rw [hj] at hc; cases hc
          have hno2 : ¬(i ≤ j ∧ j ≤ hi ∧ sent j = false) := by
            rintro ⟨_, _, hc⟩; rw [hj] at hc; cases hc
          simp [hno1, hno2, openRunCount]
        · have hj' : sent j = false := by
            cases h : sent j
            · rfl
            · exact absurd h hj
          have hji : j ≠ i := by
            intro h; rw [h, hsi] at hj'; cases hj'
          simp [hj', openRunCount]
          split_ifs <;> omega
    · have hsi' : sent i = false := by
        cases h : sent i
        · rfl
        · exact absurd h hsi
      cases last with
      | some s =>
        have hs := hlast s rfl
        have hrec := ih (i + 1) (fun j' => if j' = i then true else sent j') (some s)
          (by omega) (fun s' h => by injection h with h'; omega)
        simp only [orGo, hsi', Bool.false_eq_true, if_false]
        rw [hrec]
        simp only [openRunCount]
        by_cases hji : j = i
        · subst hji
          have hno1 : ¬(j + 1 ≤ j ∧ j ≤ hi ∧
              (fun j' => if j' = j then true else sent j') j = false) := by
            rintro ⟨h1, _, _⟩; omega
          rw [if_neg hno1, if_pos (⟨by omega, by omega⟩ : s ≤ j ∧ j < j + 1),
            if_pos (⟨Nat.le_refl j, hihi, hsi'⟩ : j ≤ j ∧ j ≤ hi ∧ sent j = false),
            if_neg (by rintro ⟨_, h⟩; omega : ¬(s ≤ j ∧ j < j))]
        · have hupd : (fun j' => if j' = i then true else sent j') j = sent j :=
            if_neg hji
          simp only [hupd]
          have hrun : (if s ≤ j ∧ j < i + 1 then 1 else 0) = if s ≤ j ∧ j < i then 1 else 0 := by
            split_ifs <;> omega
          rw [hrun]
          have hiff : (i + 1 ≤ j ∧ j ≤ hi ∧ sent j = false) ↔
              (i ≤ j ∧ j ≤ hi ∧ sent j = false) := by
            constructor
            · rintro ⟨h1, h2, h3⟩; exact ⟨by omega, h2, h3⟩
            · rintro ⟨h1, h2, h3⟩; exact ⟨by omega, h2, h3⟩
          simp only [hiff]
      | none =>
        have hrec := ih (i + 1) (fun j' => if j' = i then true else sent j') (some i)
          (by omega) (fun s' h => by injection h with h'; omega)
        simp only [orGo, hsi', Bool.false_eq_true, if_false]
        rw [hrec]
        simp only [openRunCount]
        by_cases hji : j = i
        · subst hji
          have hno1 : ¬(j + 1 ≤ j ∧ j ≤ hi ∧
              (fun j' => if j' = j then true else sent j') j = false) := by
            rintro ⟨h1, _, _⟩; omega
          rw [if_neg hno1, if_pos (⟨Nat.le_refl j, by omega⟩ : j ≤ j ∧ j < j + 1),
            if_pos (⟨Nat.le_refl j, hihi, hsi'⟩ : j ≤ j ∧ j ≤ hi ∧ sent j = false)]
        · have hupd : (fun j' => if j' = i then true else sent j') j = sent j :=
            if_neg hji
          simp only [hupd]
          have hrun : ¬(i ≤ j ∧ j < i + 1) := by rintro ⟨h1, h2⟩; omega
          rw [if_neg hrun]
          have hiff : (i + 1 ≤ j ∧ j ≤ hi ∧ sent j = false) ↔
              (i ≤ j ∧ j ≤ hi ∧ sent j = false) := by
            constructor
            · rintro ⟨h1, h2, h3⟩; exact ⟨by omega, h2, h3⟩
            · rintro ⟨h1, h2, h3⟩; exact ⟨by omega, h2, h3⟩
          simp only [hiff]

theorem orAll_count (j : Nat) :
    ∀ (rs : List (Nat × Nat)) (sent : Nat → Bool),
      coverCount (orAll rs sent) j =
        if rs.any (fun r => covers r j) = true ∧ sent j = false then 1 else 0 := by
  intro rs
  induction rs with
  | nil => intro sent; simp [orAll, coverCount]
  | cons r rest ih =>
    obtain ⟨lo, hi⟩ := r
    intro sent
    by_cases hlh : lo ≤ hi
    · have hout := orGo_count hi j (hi + 1 - lo) lo sent none (by omega) (fun s h => by cases h)
      have hsent := orGo_fst hi j (List.range' lo (hi + 1 - lo)) sent none
      simp only [orAll, coverCount_append]
      rw [hout, ih]
      have hmem : (j ∈ List.range' lo (hi + 1 - lo)) ↔ (lo ≤ j ∧ j ≤ hi) := by
        rw [List.mem_range'_1]; omega
      by_cases hcov : lo ≤ j ∧ j ≤ hi
      · have hsent2 : (orGo hi (List.range' lo (hi + 1 - lo)) sent none).1 j = true := by
          rw [hsent]
          simp [hmem.mpr hcov]
        rw [hsent2]
        have hrest : ¬(rest.any (fun r => covers r j) = true ∧ true = false) := by
          rintro ⟨_, hc⟩; cases hc
        have hch : covers (lo, hi) j = true := by simp [covers]; omega
        simp only [openRunCount, List.any_cons, hch, Bool.true_or, hrest, if_false]
        by_cases hj : sent j = true
        · have hno : ¬(lo ≤ j ∧ j ≤ hi ∧ sent j = false) := by
            rintro ⟨_, _, hc⟩; rw [hj] at hc; cases hc
          simp [hno, hj]
        · have hj' : sent j = false := by
            cases h : sent j
            · rfl
            · exact absurd h hj
          simp [hcov, hj']
      · have hsent2 : (orGo hi (List.range' lo (hi + 1 - lo)) sent none).1 j = sent j := by
          rw [hsent]
          simp [(by rw [hmem]; exact hcov : ¬ j ∈ List.range' lo (hi + 1 - lo))]
        rw [hsent2]
        have hno : ¬(lo ≤ j ∧ j ≤ hi ∧ sent j = false) := by
          rintro ⟨h1, h2, _⟩; exact hcov ⟨h1, h2⟩
        have hch : covers (lo, hi) j = false := by
          simp [covers]; omega
        have hany : ((lo, hi) :: rest).any (fun r => covers r j) =
            rest.any (fun r => covers r j) := by
          simp [List.any_cons, hch]
        rw [if_neg hno, hany]
        simp [openRunCount]
    · have h0 : hi + 1 - lo = 0 := by omega
      have hch : covers (lo, hi) j = false := by
        simp [covers]; omega
      simp only [orAll, h0, List.range', orGo, coverCount_append, coverCount_nil,
        List.any_cons, hch, Bool.false_or]
      rw [ih]
      omega

/-! ### Value-filter soundness -/

theorem evaluateRow_iff (P : Pred) (v : Int) : evaluateRow P v = true ↔ PredHolds P v := by
  cases P with
  | range mn mx =>
    cases mn <;> cases mx <;> simp [evaluateRow, PredHolds, jslt, jsgt] <;> omega
  | value t => simp [evaluateRow, PredHolds]

theorem fastPass_sound (P : Pred) (rm rM : Option Int) (v : Int)
    (hfp : fastPassPhase P rm rM = true) (hb : boundedBy rm rM v) : PredHolds P v := by
  obtain ⟨hbl, hbu⟩ := hb
  cases P with
  | range mn mx =>
    rcases rm with _ | a
    · simp [fastPassPhase] at hfp
    · rcases rM with _ | b
      · simp [fastPassPhase] at hfp
      · have ha : a ≤ v := hbl a rfl
        have hbv : v ≤ b := hbu b rfl
        rcases mn with _ | m <;> rcases mx with _ | M <;>
          simp [fastPassPhase, jslt, jsgt, PredHolds] at hfp ⊢ <;> omega
  | value t =>
    rcases rm with _ | a
    · simp [fastPassPhase] at hfp
    · rcases rM with _ | b
      · simp [fastPassPhase] at hfp
      · have ha : a ≤ v := hbl a rfl
        have hbv : v ≤ b := hbu b rfl
        simp [fastPassPhase, PredHolds] at hfp ⊢
        omega

theorem scanLoop_sound (P : Pred) (f : Nat → Int) (rr : RR) (m : Nat) :
    ∀ (n i : Nat) (cur : Option (Nat × Nat × Int × Int)),
      m ≤ i →
      (match cur with
        | some (s, e, _, _) => m ≤ s ∧ e + 1 = i ∧
            ∀ j, s ≤ j → j ≤ e → evaluateRow P (f j) = true
        | none => True) →
      ∀ R ∈ scanLoop P f rr (List.range' i n) cur,
        ∀ j, R.low ≤ j → j ≤ R.high → m ≤ j ∧ evaluateRow P (f j) = true := by
  intro n
  induction n with
  | zero =>
    intro i cur hmi hcur R hR j hj1 hj2
    cases cur with
    | none => simp [scanLoop, List.range'] at hR
    | some c =>
      obtain ⟨s, e, lv, hv⟩ := c
      simp [scanLoop, List.range'] at hR
      obtain ⟨hms, hei, hpred⟩ := hcur
      subst hR
      simp [RR.extendVals] at hj1 hj2
      exact ⟨by omega, hpred j hj1 hj2⟩
  | succ nn ih =>
    intro i cur hmi hcur R hR j hj1 hj2
    rw [List.range'_succ] at hR
    by_cases hev : evaluateRow P (f i) = true
    · cases cur with
      | none =>
        simp only [scanLoop] at hR
        rw [if_pos hev] at hR
        refine ih (i + 1) (some (i, i, f i, f i)) (by omega)
          ⟨hmi, rfl, ?_⟩ R hR j hj1 hj2
        intro j2 h1 h2
        have hj2i : j2 = i := by omega
        rw [hj2i]; exact hev
      | some c =>
        obtain ⟨s, e, lv, hv⟩ := c
        simp only [scanLoop] at hR
        rw [if_pos hev] at hR
        obtain ⟨hms, hei, hpred⟩ := hcur
        refine ih (i + 1) (some (s, i, if lv < f i then lv else f i,
          if hv > f i then hv else f i)) (by omega) ⟨hms, rfl, ?_⟩ R hR j hj1 hj2
        intro j2 h1 h2
        by_cases hj2i : j2 = i
        · rw [hj2i]; exact hev
        · exact hpred j2 h1 (by omega)
    · cases cur with
      | none =>
        simp only [scanLoop] at hR
        rw [if_neg hev] at hR
        exact ih (i + 1) none (by omega) trivial R hR j hj1 hj2
      | some c =>
        obtain ⟨s, e, lv, hv⟩ := c
        simp only [scanLoop] at hR
        rw [if_neg hev] at hR
        obtain ⟨hms, hei, hpred⟩ := hcur
        rcases List.mem_cons.mp hR with hR1 | hR2
        · subst hR1
          simp [RR.extendVals] at hj1 hj2
          exact ⟨by omega, hpred j hj1 hj2⟩
        · exact ih (i + 1) none (by omega) trivial R hR2 j hj1 hj2

theorem extendVals_low (rr : RR) (lo hi : Nat) (lv hv : Int) :
    (rr.extendVals lo hi lv hv).low = lo := rfl

theorem extendVals_high (rr : RR) (lo hi : Nat) (lv hv : Int) :
    (rr.extendVals lo hi lv hv).high = hi := rfl

theorem extendPlain_low (rr : RR) (lo hi : Nat) : (rr.extendPlain lo hi).low = lo := rfl

theorem extendPlain_high (rr : RR) (lo hi : Nat) : (rr.extendPlain lo hi).high = hi := rfl

theorem effMin_extendVals (col : ColumnData) (rr : RR) (lo hi : Nat) (lv hv : Int) :
    effMin col (rr.extendVals lo hi lv hv) = some lv := rfl

theorem effMax_extendVals (col : ColumnData) (rr : RR) (lo hi : Nat) (lv hv : Int) :
    effMax col (rr.extendVals lo hi lv hv) = some hv := rfl

theorem effMin_extendPlain (col : ColumnData) (rr : RR) (lo hi : Nat) :
    effMin col (rr.extendPlain lo hi) = effMin col rr := rfl

theorem effMax_extendPlain (col : ColumnData) (rr : RR) (lo hi : Nat) :
    effMax col (rr.extendPlain lo hi) = effMax col rr := rfl

theorem stage2_sound (P : Pred) (col : ColumnData) (vals : Nat → Int) (rr : RR)
    (hs : col.offsets.Pairwise (fun a b => a < b)) (h0 : col.offsets ≠ [])
    (hfirst : col.offsets.getD 0 0 = 0) (hb : boundsOk col vals rr) :
    ∀ R ∈ stage2 P col vals rr, ∀ j, R.low ≤ j → j ≤ R.high → PredHolds P (vals j) := by
  intro R hR j hj1 hj2
  by_cases hfp : fastPassPhase P (effMin col rr) (effMax col rr) = true
  · simp only [stage2] at hR
    rw [if_pos hfp] at hR
    simp at hR
    subst hR
    exact fastPass_sound P _ _ _ hfp (hb j hj1 hj2)
  · simp only [stage2] at hR
    rw [if_neg hfp] at hR
    have hbase : col.offsets.getD (findRelevantPageIndex col.offsets rr.low) 0 ≤ rr.low :=
      (findRelevantPageIndex_correct col.offsets rr.low hs h0
        (by rw [hfirst]; exact Nat.zero_le _)).2.1
    obtain ⟨hmj, hev⟩ := scanLoop_sound P
      (fun i => pageVals vals (col.offsets.getD (findRelevantPageIndex col.offsets rr.low) 0)
        (i - col.offsets.getD (findRelevantPageIndex col.offsets rr.low) 0))
      rr rr.low (rr.high + 1 - rr.low) rr.low none (Nat.le_refl _) trivial R hR j hj1 hj2
    have hconv : pageVals vals (col.offsets.getD (findRelevantPageIndex col.offsets rr.low) 0)
        (j - col.offsets.getD (findRelevantPageIndex col.offsets rr.low) 0) = vals j := by
      unfold pageVals
      congr 1
      omega
    have hev2 : evaluateRow P (vals j) = true := by
      rw [← hconv]
      exact hev
    exact (evaluateRow_iff P (vals j)).mp hev2

theorem splitPages_mem (col : ColumnData) (rr : RR) (sp ep : Nat) :
    ∀ (ps : List Nat) (R : RR), R ∈ splitPages col rr sp ep ps →
      ∃ p, p ∈ ps ∧
        R = (match col.colIdx with
          | some (mins, maxs) =>
              rr.extendVals (if p = sp then rr.low else col.offsets.getD p 0)
                (if p = ep then rr.high else col.offsets.getD (p + 1) 0 - 1)
                (mins.getD p 0) (maxs.getD p 0)
          | none =>
              rr.extendPlain (if p = sp then rr.low else col.offsets.getD p 0)
                (if p = ep then rr.high else col.offsets.getD (p + 1) 0 - 1)) := by
  intro ps
  induction ps with
  | nil => intro R hR; simp [splitPages] at hR
  | cons p rest ih =>
    intro R hR
    simp only [splitPages] at hR
    rcases List.mem_cons.mp hR with h1 | h2
    · exact ⟨p, List.mem_cons_self p rest, h1⟩
    · obtain ⟨q, hq, hqe⟩ := ih R h2
      exact ⟨q, List.mem_cons_of_mem p hq, hqe⟩

theorem stage1_sound (P : Pred) (col : ColumnData) (vals : Nat → Int) (rr : RR)
    (hs : col.offsets.Pairwise (fun a b => a < b)) (h0 : col.offsets ≠ [])
    (hfirst : col.offsets.getD 0 0 = 0) (hlh : rr.low ≤ rr.high)
    (hb : boundsOk col vals rr) (hci : colIdxOk col vals) :
    ∀ R ∈ stage1 P col rr, boundsOk col vals R := by
  intro R hR
  simp only [stage1] at hR
  by_cases hff : (!fastFilterPhase P (effMin col rr) (effMax col rr)) = true
  · rw [if_pos hff] at hR
    simp at hR
  · rw [if_neg hff] at hR
    by_cases hfp : fastPassPhase P (effMin col rr) (effMax col rr) = true
    · rw [if_pos hfp] at hR
      simp at hR
      subst hR
      exact hb
    · rw [if_neg hfp] at hR
      obtain ⟨p, hp, hpe⟩ := splitPages_mem col rr
        (findRelevantPageIndex col.offsets rr.low)
        (findRelevantPageIndex col.offsets rr.high) _ R hR
      rw [List.mem_range'_1] at hp
      obtain ⟨hsplen, hsple, hspnext⟩ :=
        findRelevantPageIndex_correct col.offsets rr.low hs h0
          (by rw [hfirst]; exact Nat.zero_le _)
      obtain ⟨heplen, heple, hepnext⟩ :=
        findRelevantPageIndex_correct col.offsets rr.high hs h0
          (by rw [hfirst]; exact Nat.zero_le _)
      have hspep : findRelevantPageIndex col.offsets rr.low ≤
          findRelevantPageIndex col.offsets rr.high := by
        by_contra hcon
        have h1 : findRelevantPageIndex col.offsets rr.high + 1 < col.offsets.length := by
          omega
        have h2 := hepnext h1
        have h3 : col.offsets.getD (findRelevantPageIndex col.offsets rr.high + 1) 0 ≤
            col.offsets.getD (findRelevantPageIndex col.offsets rr.low) 0 :=
          getD_le_of_sorted hs (by omega) hsplen
        omega
      have hpsp : findRelevantPageIndex col.offsets rr.low ≤ p := hp.1
      have hpep : p ≤ findRelevantPageIndex col.offsets rr.high := by omega
      have hplen : p < col.offsets.length := by omega
      have hstart : rr.low ≤
          (if p = findRelevantPageIndex col.offsets rr.low then rr.low
            else col.offsets.getD p 0) := by
        by_cases hc : p = findRelevantPageIndex col.offsets rr.low
        · rw [if_pos hc]
        · rw [if_neg hc]
          have h4 : col.offsets.getD (findRelevantPageIndex col.offsets rr.low + 1) 0 ≤
              col.offsets.getD p 0 := getD_le_of_sorted hs (by omega) hplen
          have h5 := hspnext (by omega)
          omega
      have hoffstart : col.offsets.getD p 0 ≤
          (if p = findRelevantPageIndex col.offsets rr.low then rr.low
            else col.offsets.getD p 0) := by
        by_cases hc : p = findRelevantPageIndex col.offsets rr.low
        · rw [if_pos hc, hc]
          exact hsple
        · rw [if_neg hc]
      have hstop : (if p = findRelevantPageIndex col.offsets rr.high then rr.high
          else col.offsets.getD (p + 1) 0 - 1) ≤ rr.high := by
        by_cases hc : p = findRelevantPageIndex col.offsets rr.high
        · rw [if_pos hc]
        · rw [if_neg hc]
          have h4 : col.offsets.getD (p + 1) 0 ≤
              col.offsets.getD (findRelevantPageIndex col.offsets rr.high) 0 :=
            getD_le_of_sorted hs (by omega) heplen
          omega
      have hstopnext : p + 1 < col.offsets.length →
          (if p = findRelevantPageIndex col.offsets rr.high then rr.high
            else col.offsets.getD (p + 1) 0 - 1) < col.offsets.getD (p + 1) 0 := by
        intro hp1len
        by_cases hc : p = findRelevantPageIndex col.offsets rr.high
        · rw [if_pos hc, hc]
          exact hepnext (by omega)
        · rw [if_neg hc]
          have h4 : col.offsets.getD 0 0 < col.offsets.getD (p + 1) 0 :=
            getD_lt_of_sorted hs (by omega) hp1len
          omega
      rcases hcx : col.colIdx with _ | ⟨mins, maxs⟩
      · rw [hcx] at hpe
        rw [hpe]
        intro i hi1 hi2
        rw [effMin_extendPlain, effMax_extendPlain]
        rw [extendPlain_low] at hi1
        rw [extendPlain_high] at hi2
        exact hb i (by omega) (by omega)
      · rw [hcx] at hpe
        rw [hpe]
        intro i hi1 hi2
        rw [effMin_extendVals, effMax_extendVals]
        rw [extendVals_low] at hi1
        rw [extendVals_high] at hi2
        have hoffp : col.offsets.getD p 0 ≤ i := by omega
        have hnext : p + 1 < col.offsets.length → i < col.offsets.getD (p + 1) 0 := by
          intro hp1len
          have h4 := hstopnext hp1len
          omega
        obtain ⟨hlo2, hhi2⟩ := hci mins maxs hcx p hplen i hoffp hnext
        constructor
        · intro a ha
          injection ha with ha'
          omega
        · intro b hbv
          injection hbv with hb'
          omega

/-! ### Claim theorems -/

/-- C1: for every non-index Value or Range predicate, when the row-group
statistics (and any tightened bounds the input range arrives with) and the
column-index entries truthfully bound the page values, every row of every
RowRange the value-filter phase emits satisfies the predicate: equality
with the target for a Value node, containment in whichever of min/max are
defined for a Range node. -/
theorem claim_C1_value_filter_sound (P : Pred) (col : ColumnData) (vals : Nat → Int) (rr : RR)
    (hs : col.offsets.Pairwise (fun a b => a < b)) (h0 : col.offsets ≠ [])
    (hfirst : col.offsets.getD 0 0 = 0) (hlh : rr.low ≤ rr.high)
    (hb : boundsOk col vals rr) (hci : colIdxOk col vals) :
    ∀ R ∈ filterPhasePipe P col vals rr, ∀ j, R.low ≤ j → j ≤ R.high →
      PredHolds P (vals j) := by
  intro R hR j hj1 hj2
  simp only [filterPhasePipe] at hR
  rw [List.mem_flatMap] at hR
  obtain ⟨R1, hR1, hR2⟩ := hR
  exact stage2_sound P col vals R1 hs h0 hfirst
    (stage1_sound P col vals rr hs h0 hfirst hlh hb hci R1 hR1) R hR2 j hj1 hj2

/-- C1 witness: the theorem applied to a one-page fixture with constant
value 25 and the predicate value = 25, at the emitted range and row 1. -/
theorem claim_C1_witness : PredHolds (.value 25) 25 :=
  claim_C1_value_filter_sound (.value 25) c1ColW (fun _ => 25) c1RRW
    (by decide) (by decide) (by decide) (by decide)
    (by
      intro i h1 h2
      refine ⟨fun a ha => ?_, fun b hb2 => ?_⟩
      · injection ha with h
        rw [← h]
        norm_num
      · injection hb2 with h
        rw [← h]
        norm_num)
    (by
      intro mins maxs hcx p hp i h1 h2
      injection hcx with h
      injection h with hm hM
      subst hm
      subst hM
      have hp0 : p = 0 := by
        simp [c1ColW] at hp
        omega
      subst hp0
      constructor
      · norm_num [List.getD]
      · norm_num [List.getD])
    ⟨0, 0, 2, some 25, some 25⟩ (by decide) 1 (by decide) (by decide)

/-- C6: a row index is covered by the ranges the OR phase emits exactly
once when at least one child sub-pipeline emits a range covering it, and
zero times otherwise — in particular no row is ever covered twice. -/
theorem claim_C6_or_coverage (children : List (List (Nat × Nat))) (j : Nat) :
    coverCount (orPipe children) j =
      if children.flatten.any (fun r => covers r j) = true then 1 else 0 := by
  have h := orAll_count j children.flatten (fun _ => false)
  simp only [orPipe]
  rw [h]
  by_cases hany : (children.flatten.any fun r => covers r j) = true
  · rw [if_pos ⟨hany, rfl⟩, if_pos hany]
  · rw [if_neg (fun hc => hany hc.1), if_neg hany]

/-- C5: on a fetched offset index whose `first_row_index` values are
strictly increasing, are non-empty and whose first entry is at most
`rowIndex`, findRelevantPageIndex returns the unique page `p` with
`page[p].first_row_index ≤ rowIndex` and either `p` last or
`rowIndex < page[p+1].first_row_index`. -/
theorem claim_C5_find_relevant_page (l : List Nat) (x : Nat)
    (hs : l.Pairwise (fun a b => a < b)) (h0 : l ≠ []) (hx : l.getD 0 0 ≤ x) :
    findRelevantPageIndex l x < l.length ∧
      l.getD (findRelevantPageIndex l x) 0 ≤ x ∧
      (findRelevantPageIndex l x + 1 < l.length → x < l.getD (findRelevantPageIndex l x + 1) 0) ∧
      ∀ q, q < l.length → l.getD q 0 ≤ x → (q + 1 < l.length → x < l.getD (q + 1) 0) →
        q = findRelevantPageIndex l x := by
  obtain ⟨hlen, hle, hnext⟩ := findRelevantPageIndex_correct l x hs h0 hx
  refine ⟨hlen, hle, hnext, ?_⟩
  intro q hq hqle hqnext
  rcases Nat.lt_trichotomy q (findRelevantPageIndex l x) with h | h | h
  · exfalso
    have h1 : q + 1 < l.length := by omega
    have h2 : x < l.getD (q + 1) 0 := hqnext h1
    have h3 : l.getD (q + 1) 0 ≤ l.getD (findRelevantPageIndex l x) 0 :=
      getD_le_of_sorted hs (by omega) hlen
    omega
  · exact h
  · exfalso
    have h1 : findRelevantPageIndex l x + 1 < l.length := by omega
    have h2 : x < l.getD (findRelevantPageIndex l x + 1) 0 := hnext h1
    have h3 : l.getD (findRelevantPageIndex l x + 1) 0 ≤ l.getD q 0 :=
      getD_le_of_sorted hs (by omega) hq
    omega

/-- C5 witness: on the fixture offset index `[0, 4]` and row index 5 the
returned page start is at most 5. -/
theorem claim_C5_witness :
    [0, 4].getD (findRelevantPageIndex [0, 4] 5) 0 ≤ 5 :=
  (claim_C5_find_relevant_page [0, 4] 5 (by decide) (by decide) (by decide)).2.1

/-- C3 counterexample: with effective bounds rowMin = 5 and rowMax = 10
and predicate min = 5, max = 20 we have min ≤ rowMin and rowMax ≤ max, yet
FilterRangePhase.fastPass returns false — the source compares strictly
(`rowMin > this.min`), so the claimed iff fails at this input. -/
theorem claim_C3_counterexample :
    fastPassPhase (.range (some 5) (some 20)) (some 5) (some 10) = false ∧
      (5 : Int) ≤ 5 ∧ (10 : Int) ≤ 20 := by decide

/-- C3 amended: for a Range predicate and a RowRange with both effective
bounds defined, fastPass returns true iff min < rowMin and rowMax < max,
strictly, for whichever of min/max are defined. -/
theorem claim_C3_fastpass_strict (rm rM : Int) (mn mx : Option Int) :
    fastPassPhase (.range mn mx) (some rm) (some rM) = true ↔
      (∀ a, mn = some a → a < rm) ∧ (∀ b, mx = some b → rM < b) := by
  cases mn <;> cases mx <;> simp [fastPassPhase, jslt, jsgt]

/-- C4: for a Range predicate and a RowRange with both effective bounds
defined, fastFilter returns false iff rowMin > max or rowMax < min, for
whichever of the predicate's bounds are defined. -/
theorem claim_C4_fastfilter_iff (rm rM : Int) (mn mx : Option Int) :
    fastFilterPhase (.range mn mx) (some rm) (some rM) = false ↔
      (∃ b, mx = some b ∧ b < rm) ∨ (∃ a, mn = some a ∧ rM < a) := by
  cases mn <;> cases mx <;> simp [fastFilterPhase, jslt, jsgt] <;> omega

/-- C2: on the two-row-group fixture,
`filter = [{path: quantity, min: 18, max: 20, index: true}]` emits exactly
(Group0, [0,3]), (Group1, [0,0]), (Group1, [3,4]), in that order. -/
theorem claim_C2_three_hits :
    c2Run = [(0, 0, 3), (1, 0, 0), (1, 3, 4)] := by decide

/-- C7 counterexample: the durable store is a bounded QuickLRU, so a
durable key can be evicted by capacity pressure between (or during) two
requests; on the trace request–evict–request for the same durable key,
two requesters cause two underlying reader fetches with zero completions
in between — the claimed at-most-one-fetch guarantee fails. -/
theorem claim_C7_counterexample :
    cacheRun (fun _ => false) 0
        [.request 0, .evict 0, .request 0] (fun _ => false) = 2 ∧
      completeCount 0 [.request 0, .evict 0, .request 0] = 0 := by decide

/-- C7 amended: over any trace of requests, completions and LRU evictions
starting from the empty cache, the number of underlying reader fetches for
a fixed key is at most one more than the number of events that drop the
key's stored future — completions for the short-scope page kind, LRU
evictions for the durable kinds.  In particular, while a key's future is
stored and not dropped, every further requester (including derived
RowRanges of the same lineage priming concurrently) joins it and starts no
second underlying call. -/
theorem claim_C7_cache_dedup (short : Nat → Bool) (k : Nat) (es : List CacheEvent) :
    cacheRun short k es (fun _ => false) ≤
      (if short k then completeCount k es else evictCount k es) + 1 := by
  have h := (cacheRun_le_drops short k es (fun _ => false)).2
  rw [dropCount_eq] at h
  exact h

/-- C8 counterexample: a predicate object carrying none of the recognized
keys (i.e. only unrecognized ones) makes parseFilterPhase fall through and
return no phase (`undefined`); no SpecError or any other parse error is
raised. -/
theorem claim_C8_counterexample :
    parseFilterPhase ⟨false, none, none, none, false, false, false⟩ = none := by decide

/-- C8 amended: for every spec object on which none of the recognized
keys value/min/max/and/or (nor index, nor being an array) is present,
parseFilterPhase returns none — the predicate is silently dropped rather
than reported as a parse error. -/
theorem claim_C8_unknown_keys (s : FilterSpec) (h1 : s.index = false) (h2 : s.value = none)
    (h3 : s.min = none) (h4 : s.max = none) (h5 : s.orClause = false) (h6 : s.isArray = false)
    (h7 : s.andClause = false) : parseFilterPhase s = none := by
  simp [parseFilterPhase, h1, h2, h3, h4, h5, h6, h7]

/-- C8 witness: the amended statement applied to the all-unrecognized
spec. -/
theorem claim_C8_witness :
    parseFilterPhase ⟨false, none, none, none, false, false, false⟩ = none :=
  claim_C8_unknown_keys ⟨false, none, none, none, false, false, false⟩ rfl rfl rfl rfl rfl rfl rfl

/-- C9 counterexample: a non-index Range predicate with min = 5 on a
RowRange whose effective min is undefined and whose effective max is 3 is
pruned: fastFilter returns false, because the `rowMax < min` disjunct of
FilterRangePhase.fastFilter sits outside the undefined guard. -/
theorem claim_C9_counterexample :
    fastFilterPhase (.range (some 5) none) none (some 3) = false := by decide

/-- C9 amended: fastFilter returns true on a missing effective bound for
Value predicates and for index-phase predicates; for a non-index Range
predicate it returns true whenever the effective max is undefined, and
when the effective min is undefined it returns the negation of the
out-of-guard comparison `rowMax < min` (so it can still prune). -/
theorem claim_C9_undefined_guard :
    (∀ (t : Int) (rm rM : Option Int), rm = none ∨ rM = none →
        fastFilterPhase (.value t) rm rM = true) ∧
    (∀ (mn mx : Option Int) (rm : Option Int),
        fastFilterPhase (.range mn mx) rm none = true) ∧
    (∀ (mn mx : Option Int) (rM : Option Int),
        fastFilterPhase (.range mn mx) none rM = !jslt rM mn) ∧
    (∀ (ev : Int → Int → Bool) (rm rM : Option Int), rm = none ∨ rM = none →
        fastFilterIdx ev rm rM = true) := by
  refine ⟨?_, ?_, ?_, ?_⟩
  · intro t rm rM h
    rcases h with rfl | rfl
    · cases rM <;> simp [fastFilterPhase]
    · cases rm <;> simp [fastFilterPhase]
  · intro mn mx rm
    cases mn <;> cases mx <;> cases rm <;> simp [fastFilterPhase, jslt, jsgt]
  · intro mn mx rM
    cases mn <;> cases mx <;> cases rM <;> simp [fastFilterPhase, jslt, jsgt]
  · intro ev rm rM h
    rcases h with rfl | rfl
    · cases rM <;> simp [fastFilterIdx]
    · cases rm <;> simp [fastFilterIdx]

/-- C9 witness: the amended statement at concrete inputs: a Value
predicate with undefined effective min, a Range predicate with undefined
effective max, and an index-phase predicate with both undefined. -/
theorem claim_C9_witness :
    fastFilterPhase (.value 0) none (some 3) = true ∧
      fastFilterPhase (.range (some 5) none) (some 1) none = true ∧
      fastFilterIdx (evaluateRangeIdx (some 5) none) none none = true :=
  ⟨claim_C9_undefined_guard.1 0 none (some 3) (Or.inl rfl),
   claim_C9_undefined_guard.2.1 (some 5) none (some 1),
   claim_C9_undefined_guard.2.2.2 (evaluateRangeIdx (some 5) none) none none (Or.inl rfl)⟩

/-- C10: the row-level test of a Value filter is JS loose equality, so
the string "25" passes against the numeric target 25; fastPass requires
the effective bounds to be strictly identical (===) to each other — two
bounds that are only loosely equal (25 and "25") fail it — before the
loose comparison with the target. -/
theorem claim_C10_loose_equality :
    (∀ v t : JSValue, evaluateValueJS v t = jsLooseEq v t) ∧
      evaluateValueJS (.str "25") (.num 25) = true ∧
      jsStrictEq (.str "25") (.num 25) = false ∧
      fastPassValueJS (some (.num 25)) (some (.str "25")) (.num 25) = false ∧
      fastPassValueJS (some (.num 25)) (some (.num 25)) (.num 25) = true :=
  ⟨fun _ _ => rfl, by decide, by decide, by decide, by decide⟩

end PQ
